import Mathlib

/-!
Verification of the in-memory session/question registry of the Virtual-Mic
repository (`src/server/routes.ts`, class `MemStorage`, plus the HTTP
handlers that wrap it).

JavaScript `Map`s are embedded as association lists that preserve insertion
order: `set` on an existing key replaces the value in place, `set` on a
fresh key appends, `delete` removes the entry, and `Array.from(m.values())`
is the list of values in insertion order.  `Partial<T>` update payloads are
embedded as records of `Option` fields (a `none` field is an absent key).
JavaScript integers are embedded as `Int` (orders, durations, counters) and
`Nat` (generated question ids).
-/

namespace VirtualMic

/-- The `Session` record (`shared/schema.ts`, table `sessions`). -/
structure Session where
  id : String
  hostName : String
  isActive : Bool
  participantCount : Int
deriving Repr, DecidableEq

/-- The `Question` record (`shared/schema.ts`, table `questions`).
`participantName` is a nullable column, hence `Option String`. -/
structure Question where
  id : Nat
  sessionId : String
  participantName : Option String
  audioFilename : String
  duration : Int
  status : String
  order : Int
deriving Repr, DecidableEq

/-- Payload `InsertSession` (`insertSessionSchema`): `participantCount` omitted,
`isActive` optional (column default). -/
structure InsertSession where
  id : String
  hostName : String
  isActive : Option Bool
deriving Repr, DecidableEq

/-- Payload `InsertQuestion` (`insertQuestionSchema`): `id`, `order`, `status`
omitted; `participantName` optional/nullable. -/
structure InsertQuestion where
  sessionId : String
  participantName : Option String
  audioFilename : String
  duration : Int
deriving Repr, DecidableEq

/-- A `Partial<Session>` update payload: a `none` field is an absent key. -/
structure SessionPatch where
  id : Option String := none
  hostName : Option String := none
  isActive : Option Bool := none
  participantCount : Option Int := none
deriving Repr, DecidableEq

/-- A `Partial<Question>` update payload: a `none` field is an absent key.
`participantName` is itself nullable, hence `Option (Option String)`. -/
structure QuestionPatch where
  id : Option Nat := none
  sessionId : Option String := none
  participantName : Option (Option String) := none
  audioFilename : Option String := none
  duration : Option Int := none
  status : Option String := none
  order : Option Int := none
deriving Repr, DecidableEq

/-- JS `Map.prototype.get`: first (and under the key-uniqueness invariant,
only) entry with the given key. -/
def mapGet {α β : Type} [DecidableEq α] (k : α) : List (α × β) → Option β
  | [] => none
  | (k', v) :: rest => if k' = k then some v else mapGet k rest

/-- JS `Map.prototype.set`: replace in place if the key is present,
append otherwise (JS `Map` preserves insertion order). -/
def mapSet {α β : Type} [DecidableEq α] (k : α) (v : β) : List (α × β) → List (α × β)
  | [] => [(k, v)]
  | (k', v') :: rest => if k' = k then (k, v) :: rest else (k', v') :: mapSet k v rest

/-- JS `Map.prototype.delete`: remove the entry with the given key. -/
def mapDelete {α β : Type} [DecidableEq α] (k : α) : List (α × β) → List (α × β)
  | [] => []
  | (k', v) :: rest => if k' = k then rest else (k', v) :: mapDelete k rest

/-- The `MemStorage` state (`routes.ts` lines 391-404).  The `users`
collection takes no part in any claim and is omitted. -/
structure MemStorage where
  sessions : List (String × Session)
  questions : List (Nat × Question)
  currentQuestionId : Nat
deriving Repr, DecidableEq

/-- The constructor of `MemStorage`: empty maps, `currentQuestionId = 1`. -/
def initialStorage : MemStorage :=
  { sessions := [], questions := [], currentQuestionId := 1 }

/-- Method `MemStorage.createSession`: `isActive` defaults to `true` via `??`,
`participantCount` is forced to `0`, then `sessions.set(session.id, session)`. -/
def createSession (st : MemStorage) (ins : InsertSession) : Session × MemStorage :=
  let session : Session :=
    { id := ins.id
      hostName := ins.hostName
      isActive := ins.isActive.getD true
      participantCount := 0 }
  (session, { st with sessions := mapSet session.id session st.sessions })

/-- Method `MemStorage.getSession`. -/
def getSession (st : MemStorage) (id : String) : Option Session :=
  mapGet id st.sessions

/-- The spread `{ ...session, ...updates }` for sessions: each supplied
field overwrites, absent fields are untouched. -/
def mergeSession (s : Session) (p : SessionPatch) : Session :=
  { id := p.id.getD s.id
    hostName := p.hostName.getD s.hostName
    isActive := p.isActive.getD s.isActive
    participantCount := p.participantCount.getD s.participantCount }

/-- Method `MemStorage.updateSession`: `undefined` on a missing id (no mutation),
otherwise shallow-merge and store back under the same key. -/
def updateSession (st : MemStorage) (id : String) (p : SessionPatch) :
    Option Session × MemStorage :=
  match mapGet id st.sessions with
  | none => (none, st)
  | some s =>
      let s' := mergeSession s p
      (some s', { st with sessions := mapSet id s' st.sessions })

/-- The `Math.max(...list)` call guarded by `length > 0 ? ... : 0`
(`createQuestion`'s `maxOrder` computation). -/
def maxOrderOf : List Int → Int
  | [] => 0
  | x :: xs => xs.foldl max x

/-- The `Array.from(map.values())` view. -/
def valuesOf {α β : Type} (l : List (α × β)) : List β :=
  l.map Prod.snd

/-- Method `MemStorage.createQuestion` (`routes.ts` lines 450-467): take and
post-increment `currentQuestionId`, compute `maxOrder` over the existing
questions of the same session, build the record with `order = maxOrder + 1`
and `status = "queued"`, and insert it. -/
def createQuestion (st : MemStorage) (ins : InsertQuestion) : Question × MemStorage :=
  let id := st.currentQuestionId
  let existingQuestions :=
    (valuesOf st.questions).filter (fun q => q.sessionId = ins.sessionId)
  let maxOrder := maxOrderOf (existingQuestions.map Question.order)
  let question : Question :=
    { id := id
      sessionId := ins.sessionId
      participantName := ins.participantName
      audioFilename := ins.audioFilename
      duration := ins.duration
      status := "queued"
      order := maxOrder + 1 }
  (question,
   { st with
       questions := mapSet id question st.questions
       currentQuestionId := id + 1 })

/-- One step of the stable insertion sort embedding JS
`.sort((a, b) => a.order - b.order)` (stable per the ECMAScript spec):
the new element goes after every already-placed element of strictly
smaller `order` and before the rest. -/
def insertByOrder (q : Question) : List Question → List Question
  | [] => [q]
  | x :: xs => if x.order < q.order then x :: insertByOrder q xs else q :: x :: xs

/-- Stable sort ascending by `order`. -/
def sortByOrder : List Question → List Question
  | [] => []
  | q :: qs => insertByOrder q (sortByOrder qs)

/-- Method `MemStorage.getQuestionsBySession`: filter by `sessionId`, sort
ascending by `order`. -/
def getQuestionsBySession (st : MemStorage) (sessionId : String) : List Question :=
  sortByOrder ((valuesOf st.questions).filter (fun q => q.sessionId = sessionId))

/-- Method `MemStorage.getQuestion`. -/
def getQuestion (st : MemStorage) (id : Nat) : Option Question :=
  mapGet id st.questions

/-- The spread `{ ...question, ...updates }` for questions. -/
def mergeQuestion (q : Question) (p : QuestionPatch) : Question :=
  { id := p.id.getD q.id
    sessionId := p.sessionId.getD q.sessionId
    participantName := p.participantName.getD q.participantName
    audioFilename := p.audioFilename.getD q.audioFilename
    duration := p.duration.getD q.duration
    status := p.status.getD q.status
    order := p.order.getD q.order }

/-- Method `MemStorage.updateQuestion`: `undefined` on a missing id (no mutation),
otherwise shallow-merge and store back under the same key. -/
def updateQuestion (st : MemStorage) (id : Nat) (p : QuestionPatch) :
    Option Question × MemStorage :=
  match mapGet id st.questions with
  | none => (none, st)
  | some q =>
      let q' := mergeQuestion q p
      (some q', { st with questions := mapSet id q' st.questions })

/-- Method `MemStorage.deleteQuestion`: `questions.delete(id)`, result ignored;
the operation has no failure outcome. -/
def deleteQuestion (st : MemStorage) (id : Nat) : MemStorage :=
  { st with questions := mapDelete id st.questions }

/-- Method `MemStorage.updateQuestionOrder`: for each id/order pair in order,
overwrite `order` iff a question with that id exists and belongs to the
given session; otherwise the pair is skipped with no effect and no error. -/
def updateQuestionOrder (st : MemStorage) (sessionId : String)
    (questionOrders : List (Nat × Int)) : MemStorage :=
  questionOrders.foldl
    (fun st' p =>
      match mapGet p.1 st'.questions with
      | some q =>
          if q.sessionId = sessionId then
            { st' with questions := mapSet p.1 { q with order := p.2 } st'.questions }
          else st'
      | none => st')
    st

/-- The `POST /api/questions` handler (`routes.ts` lines 244-271), after multer
has accepted the upload: substitute `"Anonymous"` for a missing or empty
(falsy) `participantName`, default a missing/zero (falsy) `duration` to `0`,
create the question, then bump the session's `participantCount` when the
session exists. -/
def postQuestion (st : MemStorage) (sessionId : String)
    (participantName : Option String) (filename : String)
    (duration : Option Int) : Question × MemStorage :=
  let pname : String :=
    match participantName with
    | none => "Anonymous"
    | some s => if s = "" then "Anonymous" else s
  let r := createQuestion st
    { sessionId := sessionId
      participantName := some pname
      audioFilename := filename
      duration := duration.getD 0 }
  let st2 :=
    match getSession r.2 sessionId with
    | some sess =>
        (updateSession r.2 sessionId
          { participantCount := some (sess.participantCount + 1) }).2
    | none => r.2
  (r.1, st2)

/-- The last `order` a pair list assigns to question id `i` (default `d`
when no pair mentions `i`): characterizes the net effect of
`updateQuestionOrder` on one question. -/
def lastOrderFor (i : Nat) (d : Int) : List (Nat × Int) → Int
  | [] => d
  | (j, o) :: rest => lastOrderFor i (if j = i then o else d) rest

/-- The registry operations a request can drive on the question collection. -/
inductive Op where
  | create (ins : InsertQuestion)
  | update (id : Nat) (p : QuestionPatch)
  | reorder (sessionId : String) (pairs : List (Nat × Int))
  | del (id : Nat)
deriving Repr, DecidableEq

/-- Apply one operation to the storage (results of reads are discarded). -/
def applyOp (st : MemStorage) : Op → MemStorage
  | Op.create ins => (createQuestion st ins).2
  | Op.update id p => (updateQuestion st id p).2
  | Op.reorder sid pairs => updateQuestionOrder st sid pairs
  | Op.del id => deleteQuestion st id

/-- Apply a sequence of operations left to right. -/
def applyOps (st : MemStorage) : List Op → MemStorage
  | [] => st
  | op :: ops => applyOps (applyOp st op) ops

/-- A sequence of `createQuestion` calls executed one at a time, returning
the created records in creation order together with the final state. -/
def createQuestions (st : MemStorage) : List InsertQuestion → List Question × MemStorage
  | [] => ([], st)
  | ins :: rest =>
      let r := createQuestion st ins
      let r' := createQuestions r.2 rest
      (r.1 :: r'.1, r'.2)

/-- Representation invariant of the id counter: every stored question key is
strictly below `currentQuestionId`.  Holds in `initialStorage` and is
preserved by every operation. -/
def keysBounded (st : MemStorage) : Prop :=
  ∀ p ∈ st.questions, p.1 < st.currentQuestionId

/-- Representation invariant of a JS `Map`: no duplicate keys. -/
def keysNodup (st : MemStorage) : Prop :=
  (st.questions.map Prod.fst).Nodup

/-- The question ids handed out by the `create` operations of a trace, in
execution order (`createQuestion` assigns the current counter value). -/
def assignedIds (st : MemStorage) : List Op → List Nat
  | [] => []
  | Op.create ins :: ops =>
      st.currentQuestionId :: assignedIds (applyOp st (Op.create ins)) ops
  | Op.update i p :: ops => assignedIds (applyOp st (Op.update i p)) ops
  | Op.reorder sid pairs :: ops => assignedIds (applyOp st (Op.reorder sid pairs)) ops
  | Op.del i :: ops => assignedIds (applyOp st (Op.del i)) ops

/-- Whether an operation is one of the claim's post-creation registry
operations that leaves every stored `sessionId` field alone: `del` and
`reorder` always do, `update` does iff its payload omits `sessionId`,
and `create` is not a post-creation operation. -/
def opKeepsSessionId : Op → Bool
  | Op.create _ => false
  | Op.update _ p => p.sessionId.isNone
  | Op.reorder _ _ => true
  | Op.del _ => true

/-! ### Association-list lemmas -/

theorem mapGet_mapSet_self {α β : Type} [DecidableEq α] (k : α) (v : β)
    (l : List (α × β)) : mapGet k (mapSet k v l) = some v := by
  induction l with
  | nil => simp [mapSet, mapGet]
  | cons p rest ih =>
      obtain ⟨a, b⟩ := p
      by_cases h : a = k
      · subst h
        simp [mapSet, mapGet]
      · simp [mapSet, mapGet, h, ih]

theorem mapGet_mapSet_ne {α β : Type} [DecidableEq α] {j k : α} (v : β)
    (l : List (α × β)) (h : j ≠ k) : mapGet j (mapSet k v l) = mapGet j l := by
  induction l with
  | nil => simp [mapSet, mapGet, Ne.symm h]
  | cons p rest ih =>
      obtain ⟨a, b⟩ := p
      by_cases hp : a = k
      · subst hp
        simp [mapSet, mapGet, Ne.symm h]
      · simp [mapSet, mapGet, hp, ih]

theorem mapGet_eq_none_of_not_mem {α β : Type} [DecidableEq α] {k : α}
    {l : List (α × β)} (h : k ∉ l.map Prod.fst) : mapGet k l = none := by
  induction l with
  | nil => rfl
  | cons p rest ih =>
      obtain ⟨a, b⟩ := p
      simp only [List.map_cons, List.mem_cons] at h
      push_neg at h
      simp [mapGet, Ne.symm h.1, ih h.2]

theorem mapDelete_eq_of_get_none {α β : Type} [DecidableEq α] (k : α)
    (l : List (α × β)) (h : mapGet k l = none) : mapDelete k l = l := by
  induction l with
  | nil => simp [mapDelete]
  | cons p rest ih =>
      obtain ⟨a, b⟩ := p
      by_cases hp : a = k
      · simp [mapGet, hp] at h
      · simp only [mapGet, if_neg hp] at h
        simp [mapDelete, hp, ih h]

theorem mapGet_mapDelete_self {α β : Type} [DecidableEq α] (k : α)
    (l : List (α × β)) (h : (l.map Prod.fst).Nodup) :
    mapGet k (mapDelete k l) = none := by
  induction l with
  | nil => simp [mapDelete, mapGet]
  | cons p rest ih =>
      obtain ⟨a, b⟩ := p
      simp only [List.map_cons, List.nodup_cons] at h
      by_cases hp : a = k
      · subst hp
        simp only [mapDelete, if_pos rfl]
        exact mapGet_eq_none_of_not_mem h.1
      · simp [mapDelete, mapGet, hp, ih h.2]

theorem mapDelete_idem {α β : Type} [DecidableEq α] (k : α)
    (l : List (α × β)) (h : (l.map Prod.fst).Nodup) :
    mapDelete k (mapDelete k l) = mapDelete k l :=
  mapDelete_eq_of_get_none k (mapDelete k l) (mapGet_mapDelete_self k l h)

/-! ### Claim theorems -/

/-- C3: `deleteQuestion` has no failure outcome (its type returns a plain
state).  On a well-formed state (a JS `Map` has no duplicate keys), deleting
an id that is not present leaves the whole state — in particular the
question collection, its size and its records — unchanged, and deleting the
same id twice equals deleting it once. -/
theorem deleteQuestion_idempotent (st : MemStorage) (i : Nat)
    (hkeys : (st.questions.map Prod.fst).Nodup) :
    (getQuestion st i = none → deleteQuestion st i = st) ∧
    deleteQuestion (deleteQuestion st i) i = deleteQuestion st i := by
  constructor
  · intro h
    have : mapDelete i st.questions = st.questions :=
      mapDelete_eq_of_get_none i st.questions h
    simp [deleteQuestion, this]
  · have : mapGet i (mapDelete i st.questions) = none :=
      mapGet_mapDelete_self i st.questions hkeys
    simp [deleteQuestion, mapDelete_eq_of_get_none i _ this]

/-- Witness for C3 at a concrete one-question state and an absent id. -/
theorem deleteQuestion_idempotent_witness :
    (deleteQuestion
      { sessions := []
        questions := [(1, ⟨1, "s", none, "a.webm", 3, "queued", 1⟩)]
        currentQuestionId := 2 } 5 =
      { sessions := []
        questions := [(1, ⟨1, "s", none, "a.webm", 3, "queued", 1⟩)]
        currentQuestionId := 2 }) ∧
    deleteQuestion (deleteQuestion
      { sessions := []
        questions := [(1, ⟨1, "s", none, "a.webm", 3, "queued", 1⟩)]
        currentQuestionId := 2 } 5) 5 =
    deleteQuestion
      { sessions := []
        questions := [(1, ⟨1, "s", none, "a.webm", 3, "queued", 1⟩)]
        currentQuestionId := 2 } 5 :=
  ⟨(deleteQuestion_idempotent _ 5 (by decide)).1 (by decide),
   (deleteQuestion_idempotent _ 5 (by decide)).2⟩

/-- C4: every session creation returns a record with `participantCount = 0`
(the caller cannot supply one — `insertSessionSchema` omits it), and with
`isActive = true` unless the caller supplied an explicit value, in which
case that value is kept. -/
theorem createSession_defaults (st : MemStorage) (ins : InsertSession) :
    (createSession st ins).1.participantCount = 0 ∧
    (ins.isActive = none → (createSession st ins).1.isActive = true) ∧
    (∀ b, ins.isActive = some b → (createSession st ins).1.isActive = b) := by
  refine ⟨rfl, fun h => ?_, fun b h => ?_⟩ <;> simp [createSession, h]

/-- Witness for C4: default `isActive` and an explicit override. -/
theorem createSession_defaults_witness :
    (createSession initialStorage ⟨"s1", "Dr. A", none⟩).1.participantCount = 0 ∧
    (createSession initialStorage ⟨"s1", "Dr. A", none⟩).1.isActive = true ∧
    (createSession initialStorage ⟨"s2", "B", some false⟩).1.isActive = false :=
  ⟨(createSession_defaults initialStorage ⟨"s1", "Dr. A", none⟩).1,
   (createSession_defaults initialStorage ⟨"s1", "Dr. A", none⟩).2.1 rfl,
   (createSession_defaults initialStorage ⟨"s2", "B", some false⟩).2.2 false rfl⟩

/-- C9: creating a session whose id is already present does not fail: the
returned record is built from the new arguments with `participantCount`
reset to `0`, it silently replaces the stored record, and every other
session is untouched. -/
theorem createSession_overwrites (st : MemStorage) (ins : InsertSession)
    (old : Session) (_hold : getSession st ins.id = some old) :
    (createSession st ins).1 =
      { id := ins.id, hostName := ins.hostName,
        isActive := ins.isActive.getD true, participantCount := 0 } ∧
    getSession (createSession st ins).2 ins.id = some (createSession st ins).1 ∧
    (∀ j, j ≠ ins.id → getSession (createSession st ins).2 j = getSession st j) := by
  refine ⟨rfl, ?_, fun j hj => ?_⟩
  · simp [createSession, getSession, mapGet_mapSet_self]
  · simp [createSession, getSession, mapGet_mapSet_ne _ _ hj]

/-- Witness for C9: re-create an existing session id and observe the
replacement. -/
theorem createSession_overwrites_witness :
    (createSession
      { sessions := [("s", ⟨"s", "Old", false, 7⟩)], questions := [],
        currentQuestionId := 1 } ⟨"s", "New", none⟩).1 =
      ⟨"s", "New", true, 0⟩ ∧
    getSession (createSession
      { sessions := [("s", ⟨"s", "Old", false, 7⟩)], questions := [],
        currentQuestionId := 1 } ⟨"s", "New", none⟩).2 "s" =
      some (createSession
      { sessions := [("s", ⟨"s", "Old", false, 7⟩)], questions := [],
        currentQuestionId := 1 } ⟨"s", "New", none⟩).1 :=
  ⟨(createSession_overwrites _ ⟨"s", "New", none⟩ ⟨"s", "Old", false, 7⟩ (by decide)).1,
   (createSession_overwrites _ ⟨"s", "New", none⟩ ⟨"s", "Old", false, 7⟩ (by decide)).2.1⟩

theorem updateQuestionOrder_cons (st : MemStorage) (sid : String) (i : Nat)
    (o : Int) (rest : List (Nat × Int)) :
    updateQuestionOrder st sid ((i, o) :: rest) =
      updateQuestionOrder
        (match mapGet i st.questions with
         | some q =>
             if q.sessionId = sid then
               { st with questions := mapSet i { q with order := o } st.questions }
             else st
         | none => st) sid rest := rfl

theorem updateQuestionOrder_get (st : MemStorage) (sid : String)
    (pairs : List (Nat × Int)) (j : Nat) :
    getQuestion (updateQuestionOrder st sid pairs) j =
      (getQuestion st j).map
        (fun q =>
          if q.sessionId = sid then { q with order := lastOrderFor j q.order pairs }
          else q) := by
  induction pairs generalizing st with
  | nil =>
      cases hj : getQuestion st j with
      | none => simp [updateQuestionOrder, hj]
      | some q =>
          simp only [updateQuestionOrder, List.foldl_nil, hj, Option.map_some', lastOrderFor]
          split <;> rfl
  | cons p rest ih =>
      obtain ⟨i, o⟩ := p
      rw [updateQuestionOrder_cons]
      by_cases hij : i = j
      · subst hij
        cases hi : mapGet i st.questions with
        | none =>
            simp only [hi]
            rw [ih]
            simp [getQuestion, hi]
        | some q =>
            by_cases hs : q.sessionId = sid
            · simp only [hi, if_pos hs]
              rw [ih]
              simp [getQuestion, hi, mapGet_mapSet_self, hs, lastOrderFor]
            · simp only [hi, if_neg hs]
              rw [ih]
              simp [getQuestion, hi, hs, lastOrderFor]
      · have hlast : ∀ d : Int, lastOrderFor j d ((i, o) :: rest) = lastOrderFor j d rest := by
          intro d
          simp [lastOrderFor, hij]
        cases hi : mapGet i st.questions with
        | none =>
            simp only [hi]
            rw [ih]
            cases hj : getQuestion st j <;> simp [hj, hlast]
        | some q =>
            by_cases hs : q.sessionId = sid
            · simp only [hi, if_pos hs]
              rw [ih]
              have hget : getQuestion
                  { st with questions := mapSet i { q with order := o } st.questions } j
                  = getQuestion st j := by
                simp [getQuestion, mapGet_mapSet_ne _ _ (Ne.symm hij)]
              rw [hget]
              cases hj : getQuestion st j <;> simp [hj, hlast]
            · simp only [hi, if_neg hs]
              rw [ih]
              cases hj : getQuestion st j <;> simp [hj, hlast]

/-- C2: complete characterization of `updateQuestionOrder` as seen through
`getQuestion`: a question id that does not exist stays nonexistent (the pair
is skipped, no error), a question belonging to a different session is left
entirely unchanged, and a question of the given session keeps every field
except `order`, which becomes the last order the pair list assigns to it
(its old order if no pair mentions it). -/
theorem updateQuestionOrder_spec (st : MemStorage) (sid : String)
    (pairs : List (Nat × Int)) (j : Nat) :
    getQuestion (updateQuestionOrder st sid pairs) j =
      (getQuestion st j).map
        (fun q =>
          if q.sessionId = sid then { q with order := lastOrderFor j q.order pairs }
          else q) :=
  updateQuestionOrder_get st sid pairs j

/-- C5: `updateSession` on a missing id returns the not-found sentinel and
leaves the state untouched; on an existing session it returns and stores the
shallow merge, whose fields are the patch's where supplied and the old
record's where not, leaves every other session unchanged, and never touches
the question collection. -/
theorem updateSession_spec (st : MemStorage) (i : String) (p : SessionPatch) :
    (getSession st i = none → updateSession st i p = (none, st)) ∧
    (∀ s, getSession st i = some s →
      (updateSession st i p).1 = some (mergeSession s p) ∧
      getSession (updateSession st i p).2 i = some (mergeSession s p) ∧
      (∀ j, j ≠ i → getSession (updateSession st i p).2 j = getSession st j) ∧
      (updateSession st i p).2.questions = st.questions ∧
      (p.id = none → (mergeSession s p).id = s.id) ∧
      (∀ v, p.id = some v → (mergeSession s p).id = v) ∧
      (p.hostName = none → (mergeSession s p).hostName = s.hostName) ∧
      (∀ v, p.hostName = some v → (mergeSession s p).hostName = v) ∧
      (p.isActive = none → (mergeSession s p).isActive = s.isActive) ∧
      (∀ v, p.isActive = some v → (mergeSession s p).isActive = v) ∧
      (p.participantCount = none → (mergeSession s p).participantCount = s.participantCount) ∧
      (∀ v, p.participantCount = some v → (mergeSession s p).participantCount = v)) := by
  constructor
  · intro h
    simp [updateSession, getSession] at h ⊢
    simp [h]
  · intro s hs
    simp only [getSession] at hs
    refine ⟨?_, ?_, ?_, ?_, ?_, ?_, ?_, ?_, ?_, ?_, ?_, ?_⟩
    · simp [updateSession, hs]
    · simp [updateSession, hs, getSession, mapGet_mapSet_self]
    · intro j hj
      simp [updateSession, hs, getSession, mapGet_mapSet_ne _ _ hj]
    · simp [updateSession, hs]
    · intro h
      simp [mergeSession, h]
    · intro v h
      simp [mergeSession, h]
    · intro h
      simp [mergeSession, h]
    · intro v h
      simp [mergeSession, h]
    · intro h
      simp [mergeSession, h]
    · intro v h
      simp [mergeSession, h]
    · intro h
      simp [mergeSession, h]
    · intro v h
      simp [mergeSession, h]

/-- Witness for C5: set `isActive := false` on a stored session; the result
keeps `hostName` and `participantCount` and flips `isActive`. -/
theorem updateSession_spec_witness :
    (updateSession
      { sessions := [("s", ⟨"s", "Dr. A", true, 0⟩)], questions := [],
        currentQuestionId := 1 } "s"
      { isActive := some false }).1 = some ⟨"s", "Dr. A", false, 0⟩ ∧
    getSession (updateSession
      { sessions := [("s", ⟨"s", "Dr. A", true, 0⟩)], questions := [],
        currentQuestionId := 1 } "s"
      { isActive := some false }).2 "s" = some ⟨"s", "Dr. A", false, 0⟩ :=
  ⟨((updateSession_spec
      { sessions := [("s", ⟨"s", "Dr. A", true, 0⟩)], questions := [],
        currentQuestionId := 1 } "s"
      { isActive := some false }).2 ⟨"s", "Dr. A", true, 0⟩ (by decide)).1,
   ((updateSession_spec
      { sessions := [("s", ⟨"s", "Dr. A", true, 0⟩)], questions := [],
        currentQuestionId := 1 } "s"
      { isActive := some false }).2 ⟨"s", "Dr. A", true, 0⟩ (by decide)).2.1⟩

theorem updateSession_questions_eq (st : MemStorage) (i : String) (p : SessionPatch) :
    (updateSession st i p).2.questions = st.questions := by
  cases h : mapGet i st.sessions <;> simp [updateSession, h]

/-- C8: a question creation through the request layer with no participant
name stores and returns a record whose `participantName` is the
`"Anonymous"` sentinel. -/
theorem postQuestion_anonymous (st : MemStorage) (sid fn : String)
    (dur : Option Int) :
    (postQuestion st sid none fn dur).1.participantName = some "Anonymous" ∧
    getQuestion (postQuestion st sid none fn dur).2
        (postQuestion st sid none fn dur).1.id =
      some (postQuestion st sid none fn dur).1 := by
  refine ⟨rfl, ?_⟩
  have hst : (postQuestion st sid none fn dur).2.questions
      = (createQuestion st
          { sessionId := sid, participantName := some "Anonymous",
            audioFilename := fn, duration := dur.getD 0 }).2.questions := by
    unfold postQuestion
    cases hs : getSession (createQuestion st
        { sessionId := sid, participantName := some "Anonymous",
          audioFilename := fn, duration := dur.getD 0 }).2 sid with
    | none => simp [hs]
    | some sess => simp [hs, updateSession_questions_eq]
  show mapGet (postQuestion st sid none fn dur).1.id
      (postQuestion st sid none fn dur).2.questions
      = some (postQuestion st sid none fn dur).1
  rw [hst]
  exact mapGet_mapSet_self _ _ _

/-! ### Lemmas about `maxOrderOf` and `sortByOrder` -/

theorem foldl_max_le (a : Int) (l : List Int) :
    a ≤ l.foldl max a ∧ ∀ x ∈ l, x ≤ l.foldl max a := by
  induction l generalizing a with
  | nil => simp
  | cons y ys ih =>
      have h := ih (max a y)
      simp only [List.foldl_cons]
      refine ⟨le_trans (le_max_left a y) h.1, ?_⟩
      intro x hx
      rcases List.mem_cons.mp hx with rfl | hx'
      · exact le_trans (le_max_right a x) h.1
      · exact h.2 x hx'

theorem maxOrderOf_ge {l : List Int} {x : Int} (hx : x ∈ l) : x ≤ maxOrderOf l := by
  cases l with
  | nil => cases hx
  | cons y ys =>
      rcases List.mem_cons.mp hx with rfl | hx'
      · exact (foldl_max_le x ys).1
      · exact (foldl_max_le y ys).2 x hx'

theorem maxOrderOf_append_nonneg (l : List Int) (x : Int) (hx : 0 ≤ x) :
    maxOrderOf (l ++ [x]) = max (maxOrderOf l) x := by
  cases l with
  | nil => simp [maxOrderOf, max_eq_right hx]
  | cons y ys =>
      show (ys ++ [x]).foldl max y = max (ys.foldl max y) x
      rw [List.foldl_append]
      rfl

theorem maxOrderOf_range (k : Nat) :
    maxOrderOf ((List.range' 1 k).map Int.ofNat) = k := by
  induction k with
  | zero => rfl
  | succ n ih =>
      rw [List.range'_concat, List.map_append]
      simp only [List.map_cons, List.map_nil]
      rw [maxOrderOf_append_nonneg (List.map Int.ofNat (List.range' 1 n))
        (Int.ofNat (1 + 1 * n)) (by exact Int.ofNat_nonneg _), ih]
      rw [max_eq_right (by simp only [Int.ofNat_eq_coe]; push_cast; omega)]
      simp only [Int.ofNat_eq_coe]
      push_cast
      omega

theorem insertByOrder_eq_cons (q : Question) (l : List Question)
    (h : ∀ x ∈ l, q.order ≤ x.order) : insertByOrder q l = q :: l := by
  cases l with
  | nil => rfl
  | cons x xs =>
      have hx : ¬ x.order < q.order := not_lt.mpr (h x (List.mem_cons_self x xs))
      simp [insertByOrder, hx]

theorem sortByOrder_eq_self (l : List Question)
    (h : l.Pairwise (fun a b => a.order ≤ b.order)) : sortByOrder l = l := by
  induction l with
  | nil => rfl
  | cons a l ih =>
      obtain ⟨ha, hl⟩ := List.pairwise_cons.mp h
      rw [sortByOrder, ih hl, insertByOrder_eq_cons a l ha]

theorem insertByOrder_append_big (x q : Question) (l : List Question)
    (h : x.order < q.order) : insertByOrder x (l ++ [q]) = insertByOrder x l ++ [q] := by
  induction l with
  | nil => simp [insertByOrder, not_lt.mpr (le_of_lt h)]
  | cons y ys ih =>
      by_cases hy : y.order < x.order
      · simp [insertByOrder, hy, ih]
      · simp [insertByOrder, hy]

theorem sortByOrder_append_big (l : List Question) (q : Question)
    (h : ∀ x ∈ l, x.order < q.order) :
    sortByOrder (l ++ [q]) = sortByOrder l ++ [q] := by
  induction l with
  | nil => rfl
  | cons a l ih =>
      show insertByOrder a (sortByOrder (l ++ [q])) = insertByOrder a (sortByOrder l) ++ [q]
      rw [ih (fun x hx => h x (List.mem_cons_of_mem a hx))]
      exact insertByOrder_append_big a q _ (h a (List.mem_cons_self a l))

/-! ### More association-list lemmas -/

theorem mapSet_eq_append {α β : Type} [DecidableEq α] (k : α) (v : β)
    (l : List (α × β)) (h : mapGet k l = none) : mapSet k v l = l ++ [(k, v)] := by
  induction l with
  | nil => rfl
  | cons p rest ih =>
      obtain ⟨a, b⟩ := p
      by_cases hp : a = k
      · simp [mapGet, hp] at h
      · simp only [mapGet, if_neg hp] at h
        simp [mapSet, hp, ih h]

theorem mem_mapSet {α β : Type} [DecidableEq α] {p : α × β} {k : α} {v : β}
    {l : List (α × β)} (h : p ∈ mapSet k v l) : p = (k, v) ∨ p ∈ l := by
  induction l with
  | nil => simpa [mapSet] using h
  | cons e rest ih =>
      obtain ⟨a, b⟩ := e
      by_cases hp : a = k
      · subst hp
        simp only [mapSet, if_pos rfl] at h
        rcases List.mem_cons.mp h with rfl | h'
        · exact Or.inl rfl
        · exact Or.inr (List.mem_cons_of_mem _ h')
      · simp only [mapSet, if_neg hp] at h
        rcases List.mem_cons.mp h with rfl | h'
        · exact Or.inr (List.mem_cons_self _ _)
        · rcases ih h' with h'' | h''
          · exact Or.inl h''
          · exact Or.inr (List.mem_cons_of_mem _ h'')

theorem mapGet_mem {α β : Type} [DecidableEq α] {k : α} {v : β}
    {l : List (α × β)} (h : mapGet k l = some v) : (k, v) ∈ l := by
  induction l with
  | nil => simp [mapGet] at h
  | cons p rest ih =>
      obtain ⟨a, b⟩ := p
      by_cases hp : a = k
      · subst hp
        have hb : b = v := by simpa [mapGet] using h
        subst hb
        exact List.mem_cons_self _ _
      · simp only [mapGet, if_neg hp] at h
        exact List.mem_cons_of_mem _ (ih h)

theorem mapGet_mapDelete_ne {α β : Type} [DecidableEq α] {j k : α}
    (l : List (α × β)) (h : j ≠ k) : mapGet j (mapDelete k l) = mapGet j l := by
  induction l with
  | nil => rfl
  | cons p rest ih =>
      obtain ⟨a, b⟩ := p
      by_cases hp : a = k
      · subst hp
        simp only [mapDelete, if_pos rfl]
        simp [mapGet, Ne.symm h]
      · simp [mapDelete, mapGet, hp, ih]

theorem mapDelete_sublist {α β : Type} [DecidableEq α] (k : α)
    (l : List (α × β)) : (mapDelete k l).Sublist l := by
  induction l with
  | nil => exact List.Sublist.refl _
  | cons p rest ih =>
      obtain ⟨a, b⟩ := p
      by_cases hp : a = k
      · simp only [mapDelete, if_pos hp]
        exact List.sublist_cons_of_sublist _ (List.Sublist.refl _)
      · simp only [mapDelete, if_neg hp]
        exact List.Sublist.cons₂ _ ih

theorem mapGet_isSome_of_mem {α β : Type} [DecidableEq α] {k : α}
    {l : List (α × β)} (h : k ∈ l.map Prod.fst) : ∃ v, mapGet k l = some v := by
  induction l with
  | nil => simp at h
  | cons p rest ih =>
      obtain ⟨a, b⟩ := p
      by_cases hp : a = k
      · exact ⟨b, by simp [mapGet, hp]⟩
      · simp only [List.map_cons, List.mem_cons] at h
        rcases h with h | h
        · exact absurd h.symm hp
        · obtain ⟨v, hv⟩ := ih h
          exact ⟨v, by simp [mapGet, hp, hv]⟩

theorem keys_mapSet_of_get_some {α β : Type} [DecidableEq α] {k : α} {w : β}
    (v : β) {l : List (α × β)} (h : mapGet k l = some w) :
    (mapSet k v l).map Prod.fst = l.map Prod.fst := by
  induction l with
  | nil => simp [mapGet] at h
  | cons p rest ih =>
      obtain ⟨a, b⟩ := p
      by_cases hp : a = k
      · subst hp
        simp [mapSet]
      · simp only [mapGet, if_neg hp] at h
        simp [mapSet, hp, ih h]

/-! ### State invariants along operation traces -/

theorem updateQuestionOrder_currentQuestionId (st : MemStorage) (sid : String)
    (pairs : List (Nat × Int)) :
    (updateQuestionOrder st sid pairs).currentQuestionId = st.currentQuestionId := by
  induction pairs generalizing st with
  | nil => rfl
  | cons p rest ih =>
      obtain ⟨i, o⟩ := p
      rw [updateQuestionOrder_cons]
      cases hi : mapGet i st.questions with
      | none =>
          simp only [hi]
          exact ih st
      | some q =>
          by_cases hs : q.sessionId = sid
          · simp only [hi, if_pos hs]
            exact ih _
          · simp only [hi, if_neg hs]
            exact ih _

theorem updateQuestionOrder_keysBounded (st : MemStorage) (sid : String)
    (pairs : List (Nat × Int)) (hb : keysBounded st) :
    keysBounded (updateQuestionOrder st sid pairs) := by
  induction pairs generalizing st with
  | nil => exact hb
  | cons p rest ih =>
      obtain ⟨i, o⟩ := p
      rw [updateQuestionOrder_cons]
      cases hi : mapGet i st.questions with
      | none =>
          simp only [hi]
          exact ih st hb
      | some q =>
          by_cases hs : q.sessionId = sid
          · simp only [hi, if_pos hs]
            refine ih _ ?_
            intro p hp
            rcases mem_mapSet hp with rfl | hp'
            · exact hb (i, q) (mapGet_mem hi)
            · exact hb _ hp'
          · simp only [hi, if_neg hs]
            exact ih _ hb

theorem keysBounded_applyOp (st : MemStorage) (op : Op) (hb : keysBounded st) :
    keysBounded (applyOp st op) := by
  cases op with
  | create ins =>
      intro p hp
      have hp2 : p ∈ mapSet st.currentQuestionId (createQuestion st ins).1 st.questions := hp
      rcases mem_mapSet hp2 with rfl | hp'
      · exact Nat.lt_succ_self _
      · exact Nat.lt_succ_of_lt (hb _ hp')
  | update i pq =>
      show keysBounded (updateQuestion st i pq).2
      cases hi : mapGet i st.questions with
      | none =>
          have h2 : (updateQuestion st i pq).2 = st := by
            simp [updateQuestion, hi]
          rw [h2]
          exact hb
      | some q =>
          have h2 : (updateQuestion st i pq).2 =
              { st with questions := mapSet i (mergeQuestion q pq) st.questions } := by
            simp [updateQuestion, hi]
          rw [h2]
          intro p hp
          rcases mem_mapSet hp with rfl | hp'
          · exact hb (i, q) (mapGet_mem hi)
          · exact hb _ hp'
  | reorder sid pairs =>
      exact updateQuestionOrder_keysBounded st sid pairs hb
  | del i =>
      intro p hp
      exact hb _ (List.Sublist.mem hp (mapDelete_sublist i st.questions))

theorem keysBounded_initial : keysBounded initialStorage := by
  intro p hp
  cases hp

theorem keysBounded_applyOps (st : MemStorage) (ops : List Op)
    (hb : keysBounded st) : keysBounded (applyOps st ops) := by
  induction ops generalizing st with
  | nil => exact hb
  | cons op ops ih => exact ih _ (keysBounded_applyOp st op hb)

theorem updateQuestionOrder_keysNodup (st : MemStorage) (sid : String)
    (pairs : List (Nat × Int)) (hn : keysNodup st) :
    keysNodup (updateQuestionOrder st sid pairs) := by
  induction pairs generalizing st with
  | nil => exact hn
  | cons p rest ih =>
      obtain ⟨i, o⟩ := p
      rw [updateQuestionOrder_cons]
      cases hi : mapGet i st.questions with
      | none =>
          simp only [hi]
          exact ih st hn
      | some q =>
          by_cases hs : q.sessionId = sid
          · simp only [hi, if_pos hs]
            refine ih _ ?_
            show ((mapSet i { q with order := o } st.questions).map Prod.fst).Nodup
            rw [keys_mapSet_of_get_some _ hi]
            exact hn
          · simp only [hi, if_neg hs]
            exact ih _ hn

theorem keysNodup_applyOp (st : MemStorage) (op : Op) (hn : keysNodup st) :
    keysNodup (applyOp st op) := by
  cases op with
  | create ins =>
      show ((mapSet st.currentQuestionId (createQuestion st ins).1 st.questions).map
        Prod.fst).Nodup
      cases hi : mapGet st.currentQuestionId st.questions with
      | some w =>
          rw [keys_mapSet_of_get_some _ hi]
          exact hn
      | none =>
          rw [mapSet_eq_append _ _ _ hi, List.map_append]
          rw [List.nodup_append]
          refine ⟨hn, List.nodup_singleton _, ?_⟩
          intro a ha hb
          simp only [List.map_cons, List.map_nil, List.mem_singleton] at hb
          subst hb
          obtain ⟨v, hv⟩ := mapGet_isSome_of_mem ha
          rw [hv] at hi
          cases hi
  | update i pq =>
      show keysNodup (updateQuestion st i pq).2
      cases hi : mapGet i st.questions with
      | none =>
          have h2 : (updateQuestion st i pq).2 = st := by
            simp [updateQuestion, hi]
          rw [h2]
          exact hn
      | some q =>
          have h2 : (updateQuestion st i pq).2 =
              { st with questions := mapSet i (mergeQuestion q pq) st.questions } := by
            simp [updateQuestion, hi]
          rw [h2]
          show ((mapSet i (mergeQuestion q pq) st.questions).map Prod.fst).Nodup
          rw [keys_mapSet_of_get_some _ hi]
          exact hn
  | reorder sid pairs => exact updateQuestionOrder_keysNodup st sid pairs hn
  | del i =>
      exact List.Nodup.sublist (List.Sublist.map Prod.fst (mapDelete_sublist i st.questions)) hn

theorem keysNodup_applyOps (st : MemStorage) (ops : List Op)
    (hn : keysNodup st) : keysNodup (applyOps st ops) := by
  induction ops generalizing st with
  | nil => exact hn
  | cons op ops ih => exact ih _ (keysNodup_applyOp st op hn)

theorem createQuestion_questions_append (st : MemStorage) (ins : InsertQuestion)
    (hb : keysBounded st) :
    (createQuestion st ins).2.questions =
      st.questions ++ [(st.currentQuestionId, (createQuestion st ins).1)] := by
  have hnone : mapGet st.currentQuestionId st.questions = none := by
    apply mapGet_eq_none_of_not_mem
    intro hmem
    rw [List.mem_map] at hmem
    obtain ⟨p, hp, he⟩ := hmem
    have := hb p hp
    rw [he] at this
    exact lt_irrefl _ this
  exact mapSet_eq_append _ _ _ hnone

theorem createQuestion_fresh_aux (st : MemStorage) (ins : InsertQuestion)
    (hb : keysBounded st) :
    (∀ q ∈ (valuesOf st.questions).filter (fun q => q.sessionId = ins.sessionId),
        q.order < (createQuestion st ins).1.order) ∧
    getQuestionsBySession (createQuestion st ins).2 ins.sessionId =
      getQuestionsBySession st ins.sessionId ++ [(createQuestion st ins).1] := by
  have horder : ∀ q ∈ (valuesOf st.questions).filter
      (fun q => q.sessionId = ins.sessionId),
      q.order < (createQuestion st ins).1.order := by
    intro q hq
    have h1 : q.order ≤ maxOrderOf
        (((valuesOf st.questions).filter
          (fun q => q.sessionId = ins.sessionId)).map Question.order) :=
      maxOrderOf_ge (List.mem_map_of_mem Question.order hq)
    have h2 : (createQuestion st ins).1.order = maxOrderOf
        (((valuesOf st.questions).filter
          (fun q => q.sessionId = ins.sessionId)).map Question.order) + 1 := rfl
    omega
  refine ⟨horder, ?_⟩
  show sortByOrder ((valuesOf (createQuestion st ins).2.questions).filter
      (fun q => q.sessionId = ins.sessionId)) = _
  rw [createQuestion_questions_append st ins hb]
  rw [valuesOf, List.map_append, List.filter_append]
  have hsing : List.filter (fun q => decide (q.sessionId = ins.sessionId))
      (List.map Prod.snd [(st.currentQuestionId, (createQuestion st ins).1)])
      = [(createQuestion st ins).1] := by
    have hsid : (createQuestion st ins).1.sessionId = ins.sessionId := rfl
    simp [hsid]
  rw [hsing]
  exact sortByOrder_append_big _ _ horder

/-- C10: in every reachable registry state — in particular after arbitrary
`update` and `reorder` operations have rewritten `order` values — a newly
created question receives an `order` strictly greater than that of every
existing question of its session, and `getQuestionsBySession` right after
the creation returns the previous listing with the new question appended
strictly last. -/
theorem createQuestion_appendsLast (ops : List Op) (ins : InsertQuestion) :
    (∀ q ∈ (valuesOf (applyOps initialStorage ops).questions).filter
        (fun q => q.sessionId = ins.sessionId),
      q.order < (createQuestion (applyOps initialStorage ops) ins).1.order) ∧
    getQuestionsBySession (createQuestion (applyOps initialStorage ops) ins).2
        ins.sessionId =
      getQuestionsBySession (applyOps initialStorage ops) ins.sessionId
        ++ [(createQuestion (applyOps initialStorage ops) ins).1] :=
  createQuestion_fresh_aux _ ins
    (keysBounded_applyOps initialStorage ops keysBounded_initial)

/-- Witness for C10: one prior question of the same session, reordered to
order 7 by a `reorder` operation; the next creation gets order 8 and lists
last. -/
theorem createQuestion_appendsLast_witness :
    (⟨1, "s", none, "a.webm", 1, "queued", 7⟩ : Question).order <
      (createQuestion
        (applyOps initialStorage
          [Op.create ⟨"s", none, "a.webm", 1⟩, Op.reorder "s" [(1, 7)]])
        ⟨"s", none, "b.webm", 2⟩).1.order ∧
    getQuestionsBySession
        (createQuestion
          (applyOps initialStorage
            [Op.create ⟨"s", none, "a.webm", 1⟩, Op.reorder "s" [(1, 7)]])
          ⟨"s", none, "b.webm", 2⟩).2 "s" =
      getQuestionsBySession
        (applyOps initialStorage
          [Op.create ⟨"s", none, "a.webm", 1⟩, Op.reorder "s" [(1, 7)]]) "s"
        ++ [(createQuestion
          (applyOps initialStorage
            [Op.create ⟨"s", none, "a.webm", 1⟩, Op.reorder "s" [(1, 7)]])
          ⟨"s", none, "b.webm", 2⟩).1] :=
  ⟨(createQuestion_appendsLast
      [Op.create ⟨"s", none, "a.webm", 1⟩, Op.reorder "s" [(1, 7)]]
      ⟨"s", none, "b.webm", 2⟩).1 _ (by decide),
   (createQuestion_appendsLast
      [Op.create ⟨"s", none, "a.webm", 1⟩, Op.reorder "s" [(1, 7)]]
      ⟨"s", none, "b.webm", 2⟩).2⟩

/-! ### Question id generation (C7) -/

theorem currentQuestionId_le_applyOp (st : MemStorage) (op : Op) :
    st.currentQuestionId ≤ (applyOp st op).currentQuestionId := by
  cases op with
  | create ins => exact Nat.le_succ _
  | update i pq =>
      show st.currentQuestionId ≤ (updateQuestion st i pq).2.currentQuestionId
      cases hi : mapGet i st.questions <;> simp [updateQuestion, hi]
  | reorder sid pairs =>
      show st.currentQuestionId ≤ (updateQuestionOrder st sid pairs).currentQuestionId
      rw [updateQuestionOrder_currentQuestionId]
  | del i => exact Nat.le_refl _

theorem le_assignedIds (st : MemStorage) (ops : List Op) :
    ∀ x ∈ assignedIds st ops, st.currentQuestionId ≤ x := by
  induction ops generalizing st with
  | nil => intro x hx; cases hx
  | cons op ops ih =>
      intro x hx
      cases op with
      | create ins =>
          rw [assignedIds] at hx
          rcases List.mem_cons.mp hx with rfl | hx'
          · exact Nat.le_refl _
          · exact le_trans (currentQuestionId_le_applyOp st _) (ih _ x hx')
      | update i pq =>
          rw [assignedIds] at hx
          exact le_trans (currentQuestionId_le_applyOp st _) (ih _ x hx)
      | reorder sid pairs =>
          rw [assignedIds] at hx
          exact le_trans (currentQuestionId_le_applyOp st _) (ih _ x hx)
      | del i =>
          rw [assignedIds] at hx
          exact le_trans (currentQuestionId_le_applyOp st _) (ih _ x hx)

theorem assignedIds_pairwise (st : MemStorage) (ops : List Op) :
    (assignedIds st ops).Pairwise (· < ·) := by
  induction ops generalizing st with
  | nil => exact List.Pairwise.nil
  | cons op ops ih =>
      cases op with
      | create ins =>
          rw [assignedIds]
          refine List.pairwise_cons.mpr ⟨?_, ih _⟩
          intro x hx
          have h1 := le_assignedIds (applyOp st (Op.create ins)) ops x hx
          have h2 : st.currentQuestionId + 1 ≤ x := h1
          omega
      | update i pq =>
          rw [assignedIds]
          exact ih _
      | reorder sid pairs =>
          rw [assignedIds]
          exact ih _
      | del i =>
          rw [assignedIds]
          exact ih _

/-- C7: over any operation trace from process start, the question ids handed
out by the creations are pairwise strictly increasing in creation order —
hence each new id exceeds every previously assigned one — and are
process-wide unique, never reused even when deletions occur in the trace. -/
theorem questionIds_unique_increasing (ops : List Op) :
    ((assignedIds initialStorage ops).Pairwise (· < ·)) ∧
    (assignedIds initialStorage ops).Nodup :=
  ⟨assignedIds_pairwise initialStorage ops,
   List.Pairwise.imp ne_of_lt (assignedIds_pairwise initialStorage ops)⟩

/-! ### `sessionId` mutability (C6) -/

/-- Counterexample to C6 as stated: `updateQuestion` shallow-merges an
arbitrary `Partial<Question>` payload, so an update that supplies a
`sessionId` field rewrites it.  Question 1 is created with sessionId `"s"`
and after one `update` operation it is stored with sessionId `"t"`. -/
theorem sessionId_mutable_counterexample :
    (createQuestion initialStorage ⟨"s", none, "a.webm", 3⟩).1.sessionId = "s" ∧
    (getQuestion
        (applyOps (createQuestion initialStorage ⟨"s", none, "a.webm", 3⟩).2
          [Op.update 1 { sessionId := some "t" }]) 1).map Question.sessionId
      = some "t" ∧
    ("t" : String) ≠ "s" := by
  refine ⟨rfl, by decide, by decide⟩

theorem applyOp_getQuestion_none (st : MemStorage) (op : Op) (j : Nat)
    (hop : opKeepsSessionId op = true) (hj : getQuestion st j = none) :
    getQuestion (applyOp st op) j = none := by
  cases op with
  | create ins => simp [opKeepsSessionId] at hop
  | update i pq =>
      show getQuestion (updateQuestion st i pq).2 j = none
      cases hi : mapGet i st.questions with
      | none =>
          have h2 : (updateQuestion st i pq).2 = st := by
            simp [updateQuestion, hi]
          rw [h2]
          exact hj
      | some q =>
          have h2 : (updateQuestion st i pq).2 =
              { st with questions := mapSet i (mergeQuestion q pq) st.questions } := by
            simp [updateQuestion, hi]
          rw [h2]
          by_cases hij : i = j
          · subst hij
            have hj' : mapGet i st.questions = none := hj
            rw [hi] at hj'
            cases hj'
          · show mapGet j (mapSet i (mergeQuestion q pq) st.questions) = none
            rw [mapGet_mapSet_ne _ _ (Ne.symm hij)]
            exact hj
  | reorder sid pairs =>
      show getQuestion (updateQuestionOrder st sid pairs) j = none
      rw [updateQuestionOrder_get st sid pairs j, hj]
      rfl
  | del i =>
      show mapGet j (mapDelete i st.questions) = none
      by_cases hij : i = j
      · subst hij
        have hj' : mapGet i st.questions = none := hj
        rw [mapDelete_eq_of_get_none _ _ hj']
        exact hj'
      · rw [mapGet_mapDelete_ne _ (Ne.symm hij)]
        exact hj

theorem applyOps_getQuestion_none (st : MemStorage) (ops : List Op) (j : Nat)
    (hops : ∀ op ∈ ops, opKeepsSessionId op = true)
    (hj : getQuestion st j = none) :
    getQuestion (applyOps st ops) j = none := by
  induction ops generalizing st with
  | nil => exact hj
  | cons op ops ih =>
      exact ih _ (fun o ho => hops o (List.mem_cons_of_mem op ho))
        (applyOp_getQuestion_none st op j (hops op (List.mem_cons_self op ops)) hj)

theorem applyOp_preserves_sessionId (st : MemStorage) (op : Op) (j : Nat)
    (q : Question) (hop : opKeepsSessionId op = true) (hn : keysNodup st)
    (hq : getQuestion st j = some q) :
    getQuestion (applyOp st op) j = none ∨
      ∃ q1, getQuestion (applyOp st op) j = some q1 ∧ q1.sessionId = q.sessionId := by
  cases op with
  | create ins => simp [opKeepsSessionId] at hop
  | update i pq =>
      have hps : pq.sessionId = none := by
        simpa [opKeepsSessionId, Option.isNone_iff_eq_none] using hop
      show getQuestion (updateQuestion st i pq).2 j = none ∨
        ∃ q1, getQuestion (updateQuestion st i pq).2 j = some q1 ∧
          q1.sessionId = q.sessionId
      cases hi : mapGet i st.questions with
      | none =>
          have h2 : (updateQuestion st i pq).2 = st := by
            simp [updateQuestion, hi]
          rw [h2]
          exact Or.inr ⟨q, hq, rfl⟩
      | some q0 =>
          have h2 : (updateQuestion st i pq).2 =
              { st with questions := mapSet i (mergeQuestion q0 pq) st.questions } := by
            simp [updateQuestion, hi]
          rw [h2]
          by_cases hij : i = j
          · subst hij
            have hq2 : mapGet i st.questions = some q := hq
            rw [hi] at hq2
            injection hq2 with hq3
            subst hq3
            refine Or.inr ⟨mergeQuestion q0 pq, ?_, ?_⟩
            · show mapGet i (mapSet i (mergeQuestion q0 pq) st.questions) = _
              exact mapGet_mapSet_self _ _ _
            · simp [mergeQuestion, hps]
          · refine Or.inr ⟨q, ?_, rfl⟩
            show mapGet j (mapSet i (mergeQuestion q0 pq) st.questions) = some q
            rw [mapGet_mapSet_ne _ _ (Ne.symm hij)]
            exact hq
  | reorder sid pairs =>
      right
      refine ⟨if q.sessionId = sid then { q with order := lastOrderFor j q.order pairs }
        else q, ?_, ?_⟩
      · show getQuestion (updateQuestionOrder st sid pairs) j = _
        rw [updateQuestionOrder_get st sid pairs j, hq]
        rfl
      · split <;> rfl
  | del i =>
      by_cases hij : i = j
      · subst hij
        left
        show mapGet i (mapDelete i st.questions) = none
        exact mapGet_mapDelete_self i st.questions hn
      · right
        refine ⟨q, ?_, rfl⟩
        show mapGet j (mapDelete i st.questions) = some q
        rw [mapGet_mapDelete_ne _ (Ne.symm hij)]
        exact hq

/-- C6 amended: a question's `sessionId` is set at creation and is never
changed by `reorder` (`UpdateOrder`) or `del` (`Delete`) operations, and an
`update` (`Update`) leaves it unchanged whenever its payload does not itself
supply a `sessionId` field; only an update explicitly carrying `sessionId`
can rewrite it.  Over any sequence of such sessionId-free post-creation
operations on a well-formed (duplicate-key-free) state, every question still
present keeps the `sessionId` it had before. -/
theorem sessionId_immutable (ops : List Op) (st : MemStorage) (j : Nat)
    (q q' : Question)
    (hops : ∀ op ∈ ops, opKeepsSessionId op = true)
    (hn : keysNodup st)
    (hq : getQuestion st j = some q)
    (hq' : getQuestion (applyOps st ops) j = some q') :
    q'.sessionId = q.sessionId := by
  induction ops generalizing st q with
  | nil =>
      have h1 : getQuestion st j = some q' := hq'
      rw [hq] at h1
      injection h1 with h2
      rw [h2]
  | cons op ops ih =>
      have hop := hops op (List.mem_cons_self op ops)
      have hrest : ∀ o ∈ ops, opKeepsSessionId o = true :=
        fun o ho => hops o (List.mem_cons_of_mem op ho)
      rcases applyOp_preserves_sessionId st op j q hop hn hq with hnone | ⟨q1, hq1, hs1⟩
      · have h2 : getQuestion (applyOps (applyOp st op) ops) j = none :=
          applyOps_getQuestion_none _ ops j hrest hnone
        have h3 : getQuestion (applyOps (applyOp st op) ops) j = some q' := hq'
        rw [h2] at h3
        cases h3
      · have h4 := ih (applyOp st op) q1 hrest (keysNodup_applyOp st op hn) hq1 hq'
        rw [h4, hs1]

/-- Witness for C6's amended theorem: two stored questions of session `"s"`,
a reorder, a status update and a deletion later, question 1 still carries
sessionId `"s"`. -/
theorem sessionId_immutable_witness :
    (⟨1, "s", none, "a.webm", 3, "played", 5⟩ : Question).sessionId =
      (⟨1, "s", none, "a.webm", 3, "queued", 1⟩ : Question).sessionId :=
  sessionId_immutable
    [Op.reorder "s" [(1, 5)], Op.update 1 { status := some "played" }, Op.del 2]
    { sessions := []
      questions := [(1, ⟨1, "s", none, "a.webm", 3, "queued", 1⟩),
                    (2, ⟨2, "s", none, "b.webm", 4, "queued", 2⟩)]
      currentQuestionId := 3 }
    1 ⟨1, "s", none, "a.webm", 3, "queued", 1⟩ ⟨1, "s", none, "a.webm", 3, "played", 5⟩
    (by decide) (by unfold keysNodup; decide) (by decide) (by decide)

/-! ### Sequential creation from an empty question collection (C1) -/

theorem createQuestions_cons (st : MemStorage) (ins : InsertQuestion)
    (rest : List InsertQuestion) :
    createQuestions st (ins :: rest) =
      ((createQuestion st ins).1 :: (createQuestions (createQuestion st ins).2 rest).1,
       (createQuestions (createQuestion st ins).2 rest).2) := rfl

theorem createQuestions_aux (s : String) (inss : List InsertQuestion) :
    ∀ (st : MemStorage) (k : Nat),
    (∀ ins ∈ inss, ins.sessionId = s) →
    keysBounded st →
    (∀ p ∈ st.questions, p.2.sessionId = s) →
    st.questions.map (fun p => p.2.order) = (List.range' 1 k).map Int.ofNat →
    (createQuestions st inss).2.questions.map Prod.snd
        = st.questions.map Prod.snd ++ (createQuestions st inss).1 ∧
    (createQuestions st inss).1.map Question.order
        = (List.range' (k + 1) inss.length).map Int.ofNat ∧
    (∀ p ∈ (createQuestions st inss).2.questions, p.2.sessionId = s) ∧
    (createQuestions st inss).2.questions.map (fun p => p.2.order)
        = (List.range' 1 (k + inss.length)).map Int.ofNat := by
  induction inss with
  | nil =>
      intro st k hs hb hsess hord
      refine ⟨by simp [createQuestions], by simp [createQuestions], hsess, ?_⟩
      simpa using hord
  | cons ins rest ih =>
      intro st k hs hb hsess hord
      have hsid : ins.sessionId = s := hs ins (List.mem_cons_self _ _)
      have hfilter : (valuesOf st.questions).filter
          (fun q => q.sessionId = ins.sessionId) = valuesOf st.questions := by
        apply List.filter_eq_self.mpr
        intro a ha
        rw [valuesOf, List.mem_map] at ha
        obtain ⟨p, hp, he⟩ := ha
        have hps := hsess p hp
        rw [he] at hps
        simp [hps, hsid]
      have horder : (createQuestion st ins).1.order = Int.ofNat (k + 1) := by
        show maxOrderOf (((valuesOf st.questions).filter
            (fun q => q.sessionId = ins.sessionId)).map Question.order) + 1
          = Int.ofNat (k + 1)
        rw [hfilter]
        have hmm : (valuesOf st.questions).map Question.order
            = st.questions.map (fun p => p.2.order) := by
          rw [valuesOf, List.map_map]
          rfl
        rw [hmm, hord, maxOrderOf_range]
        simp only [Int.ofNat_eq_coe]
        push_cast
        ring
      have happ := createQuestion_questions_append st ins hb
      have hb1 : keysBounded (createQuestion st ins).2 :=
        keysBounded_applyOp st (Op.create ins) hb
      have hsess1 : ∀ p ∈ (createQuestion st ins).2.questions, p.2.sessionId = s := by
        rw [happ]
        intro p hp
        rcases List.mem_append.mp hp with hp' | hp'
        · exact hsess p hp'
        · rw [List.mem_singleton] at hp'
          subst hp'
          exact hsid
      have hord1 : (createQuestion st ins).2.questions.map (fun p => p.2.order)
          = (List.range' 1 (k + 1)).map Int.ofNat := by
        rw [happ, List.map_append, hord, List.range'_concat, List.map_append]
        congr 1
        simp only [List.map_cons, List.map_nil]
        rw [horder]
        congr 1
        simp only [Int.ofNat_eq_coe]
        push_cast
        ring
      have IH := ih (createQuestion st ins).2 (k + 1)
        (fun i hi => hs i (List.mem_cons_of_mem _ hi)) hb1 hsess1 hord1
      rw [createQuestions_cons]
      refine ⟨?_, ?_, IH.2.2.1, ?_⟩
      · show (createQuestions (createQuestion st ins).2 rest).2.questions.map Prod.snd
          = st.questions.map Prod.snd
            ++ ((createQuestion st ins).1 :: (createQuestions (createQuestion st ins).2 rest).1)
        rw [IH.1, happ, List.map_append]
        simp
      · show ((createQuestion st ins).1 :: (createQuestions (createQuestion st ins).2 rest).1).map
            Question.order = (List.range' (k + 1) (rest.length + 1)).map Int.ofNat
        rw [List.map_cons, IH.2.1, horder, List.range'_succ, List.map_cons]
      · show (createQuestions (createQuestion st ins).2 rest).2.questions.map
            (fun p => p.2.order) = (List.range' 1 (k + (rest.length + 1))).map Int.ofNat
        rw [IH.2.2.2]
        congr 2
        omega

/-- C1: starting from a question-free registry, `N` question creations for
the same session, executed one at a time, return records whose `order`
values are exactly `1, 2, ..., N` in creation sequence, and
`getQuestionsBySession` on the final state returns exactly those records in
that ascending order. -/
theorem createQuestions_orders (s : String) (inss : List InsertQuestion)
    (st0 : MemStorage) (h0 : st0.questions = [])
    (hs : ∀ ins ∈ inss, ins.sessionId = s) :
    (createQuestions st0 inss).1.map Question.order
        = (List.range' 1 inss.length).map Int.ofNat ∧
    getQuestionsBySession (createQuestions st0 inss).2 s
        = (createQuestions st0 inss).1 := by
  have hb : keysBounded st0 := by
    intro p hp
    rw [h0] at hp
    cases hp
  have hsess : ∀ p ∈ st0.questions, p.2.sessionId = s := by
    intro p hp
    rw [h0] at hp
    cases hp
  have hord : st0.questions.map (fun p => p.2.order)
      = (List.range' 1 0).map Int.ofNat := by
    rw [h0]
    rfl
  have A := createQuestions_aux s inss st0 0 hs hb hsess hord
  have hlen : (createQuestions st0 inss).1.map Question.order
      = (List.range' 1 inss.length).map Int.ofNat := by
    have h1 := A.2.1
    simpa using h1
  refine ⟨hlen, ?_⟩
  have hall : ∀ p ∈ (createQuestions st0 inss).2.questions, p.2.sessionId = s :=
    A.2.2.1
  have hvals : valuesOf (createQuestions st0 inss).2.questions
      = (createQuestions st0 inss).1 := by
    have h1 := A.1
    rw [h0] at h1
    simpa [valuesOf] using h1
  show sortByOrder ((valuesOf (createQuestions st0 inss).2.questions).filter
      (fun q => q.sessionId = s)) = _
  have hfil : (valuesOf (createQuestions st0 inss).2.questions).filter
      (fun q => q.sessionId = s) = valuesOf (createQuestions st0 inss).2.questions := by
    apply List.filter_eq_self.mpr
    intro a ha
    rw [valuesOf, List.mem_map] at ha
    obtain ⟨p, hp, he⟩ := ha
    have hps := hall p hp
    rw [he] at hps
    simp [hps]
  rw [hfil, hvals]
  apply sortByOrder_eq_self
  have hpw : ((createQuestions st0 inss).1.map Question.order).Pairwise (· ≤ ·) := by
    rw [hlen]
    have h1 : (List.range' 1 inss.length).Pairwise (· < ·) :=
      List.pairwise_lt_range' _ _
    have h2 : (List.range' 1 inss.length).Pairwise
        (fun a b => Int.ofNat a ≤ Int.ofNat b) :=
      h1.imp (fun h => Int.ofNat_le.mpr (Nat.le_of_lt h))
    exact List.pairwise_map.mpr h2
  exact List.pairwise_map.mp hpw

/-- Witness for C1: three creations for session `"s"` from the initial
state; the records carry orders 1, 2, 3 and `getQuestionsBySession` lists
exactly them in that sequence. -/
theorem createQuestions_orders_witness :
    (createQuestions initialStorage
        [⟨"s", none, "a.webm", 5⟩, ⟨"s", some "X", "b.webm", 8⟩,
         ⟨"s", none, "c.webm", 3⟩]).1.map Question.order
      = (List.range' 1 3).map Int.ofNat ∧
    getQuestionsBySession (createQuestions initialStorage
        [⟨"s", none, "a.webm", 5⟩, ⟨"s", some "X", "b.webm", 8⟩,
         ⟨"s", none, "c.webm", 3⟩]).2 "s"
      = (createQuestions initialStorage
        [⟨"s", none, "a.webm", 5⟩, ⟨"s", some "X", "b.webm", 8⟩,
         ⟨"s", none, "c.webm", 3⟩]).1 :=
  createQuestions_orders "s"
    [⟨"s", none, "a.webm", 5⟩, ⟨"s", some "X", "b.webm", 8⟩,
     ⟨"s", none, "c.webm", 3⟩]
    initialStorage rfl (by decide)

end VirtualMic
